import Mathlib

/-!
Verification of the `CustomDecisionTree` classifier
(`src/Workshops/Workshop8.ipynb`).

The Python class is shallowly embedded as follows.

* A feature matrix is a `List (List ℚ)` (rows of numeric feature values);
  a label vector is a `List ℕ` (the reference code feeds labels to
  `np.bincount`, which requires non-negative integers).
* `np.unique`, `np.bincount`, `np.argmax` are embedded as `npUnique`,
  `bincount`, `npArgmax`; `np.argmax` of an empty array raises, so
  `npArgmax` returns an `Option`.
* `_entropy` works with real numbers: `float` arithmetic is idealised as
  exact real arithmetic, with the source's `1e-9` epsilon kept as the exact
  rational `1/10^9`.  Division by the length of an empty list follows
  numpy's behaviour of producing an empty array whose sum is `0` (in the
  embedding: real division by zero is `0` and an empty sum is `0`).
* the split-search loop of `_build_tree` is embedded as a fold
  (`findBestSplit`) over the candidate `(feature, threshold)` pairs in the
  loop's scan order.  The initial `best_info_gain = -float('inf')` is
  modelled by starting the fold from `none`: every gain compares greater
  than the initial state, exactly as every float compares greater than
  `-inf`.
* `_build_tree` recurses on `X[best_split['left_y']]` — numpy fancy
  indexing of the rows of `X` by the *label* array `left_y` — which is
  embedded faithfully by `fancyIndex` (an `Option`, since an out-of-range
  index raises `IndexError`).  The recursion does not structurally
  decrease (on some inputs the Python code recurses forever), so the
  embedded builder takes a fuel parameter and returns `none` when either
  the fuel runs out or a modelled runtime error occurs.
* `predict`/`_predict_single` walk the tree; a missing feature index
  (Python `IndexError`) makes the result `none`.
-/

namespace DT

/-- The epsilon `1e-9` added inside the logarithm by `_entropy`. -/
noncomputable def eps : ℝ := 1 / 1000000000

/-- `np.unique`: the sorted list of distinct values of a 1-d array. -/
def npUnique {α : Type} [LinearOrder α] [DecidableEq α] (l : List α) : List α :=
  List.insertionSort (· ≤ ·) l.dedup

/-- `np.bincount`: occurrence counts of `0, 1, ..., max l` (empty result for
an empty input array). -/
def bincount (y : List ℕ) : List ℕ :=
  match y with
  | [] => []
  | _ => (List.range (y.foldr max 0 + 1)).map fun i => y.count i

/-- Scanner behind `np.argmax`: `argmaxAux rest i bi bv` scans `rest`
(whose head sits at index `i`) keeping the index `bi` and value `bv` of the
first maximum seen so far. -/
def argmaxAux : List ℕ → ℕ → ℕ → ℕ → ℕ
  | [], _, bi, _ => bi
  | v :: rest, i, bi, bv =>
    if bv < v then argmaxAux rest (i + 1) i v else argmaxAux rest (i + 1) bi bv

/-- `np.argmax`: index of the first maximal entry; raises on an empty array
(modelled by `none`). -/
def npArgmax : List ℕ → Option ℕ
  | [] => none
  | v :: rest => some (argmaxAux rest 1 0 v)

/-- `_entropy`: `-np.sum(class_probs * np.log2(class_probs + 1e-9))` with
`class_probs = np.bincount(y) / len(y)`. -/
noncomputable def entropy (y : List ℕ) : ℝ :=
  -(((bincount y).map fun c : ℕ =>
      ((c : ℝ) / (y.length : ℝ)) * Real.logb 2 ((c : ℝ) / (y.length : ℝ) + eps)).sum)

/-- `_information_gain`: parent entropy minus the length-weighted average of
the child entropies. -/
noncomputable def informationGain (parent left right : List ℕ) : ℝ :=
  entropy parent -
    (((left.length : ℝ) / (parent.length : ℝ)) * entropy left +
     ((right.length : ℝ) / (parent.length : ℝ)) * entropy right)

/-- Column `f` of the feature matrix, `X[:, f]`. -/
def column (X : List (List ℚ)) (f : ℕ) : List ℚ :=
  X.map fun row => row.getD f 0

/-- `num_features`, the second component of `X.shape` (all rows have equal
length, so the head row's length). -/
def numFeatures (X : List (List ℚ)) : ℕ :=
  (X.headD []).length

/-- The record stored in `best_split`: winning feature index and threshold,
and the label sublists `left_y = y[left_mask]`, `right_y = y[right_mask]`. -/
structure Split where
  featureIdx : ℕ
  threshold : ℚ
  leftY : List ℕ
  rightY : List ℕ
deriving DecidableEq, Repr

/-- `y[left_mask]` where `left_mask = X[:, f] <= t`. -/
def leftLabels (X : List (List ℚ)) (y : List ℕ) (f : ℕ) (t : ℚ) : List ℕ :=
  (((column X f).zip y).filter fun p => p.1 ≤ t).map Prod.snd

/-- `y[right_mask]` where `right_mask = ~left_mask`. -/
def rightLabels (X : List (List ℚ)) (y : List ℕ) (f : ℕ) (t : ℚ) : List ℕ :=
  (((column X f).zip y).filter fun p => ¬p.1 ≤ t).map Prod.snd

/-- The `best_split` candidate built for feature `f` and threshold `t`. -/
def mkSplit (X : List (List ℚ)) (y : List ℕ) (f : ℕ) (t : ℚ) : Split :=
  ⟨f, t, leftLabels X y f t, rightLabels X y f t⟩

/-- All candidate splits in the loop's scan order: feature indices
ascending (`range(num_features)`), thresholds ascending
(`np.unique(X[:, feature_idx])`). -/
def candidates (X : List (List ℚ)) (y : List ℕ) : List Split :=
  (List.range (numFeatures X)).flatMap fun f =>
    (npUnique (column X f)).map fun t => mkSplit X y f t

/-- The information gain the loop computes for a candidate split. -/
noncomputable def gainOf (y : List ℕ) (s : Split) : ℝ :=
  informationGain y s.leftY s.rightY

open Classical in
/-- One iteration of the split-search loop: the running state is `none`
before any candidate was scanned (`best_info_gain = -inf`,
`best_split = None`) and `some (best_info_gain, best_split)` afterwards.
The update fires exactly when `info_gain > best_info_gain`; every real gain
is greater than the initial `-inf`, hence the first candidate always
replaces the `none` state. -/
noncomputable def bestStep (y : List ℕ) : Option (ℝ × Split) → Split → Option (ℝ × Split)
  | none, s => some (gainOf y s, s)
  | some (bg, bs), s => if bg < gainOf y s then some (gainOf y s, s) else some (bg, bs)

/-- The whole split-search loop of `_build_tree`: fold `bestStep` over the
candidates in scan order and return the final `best_split`. -/
noncomputable def findBestSplit (X : List (List ℚ)) (y : List ℕ) : Option Split :=
  ((candidates X y).foldl (bestStep y) none).map Prod.snd

/-- The dict-shaped tree nodes: `{'class': c}` and
`{'feature_idx': f, 'threshold': t, 'left_tree': l, 'right_tree': r}`. -/
inductive Tree where
  | leaf (label : ℕ)
  | node (featureIdx : ℕ) (threshold : ℚ) (left right : Tree)
deriving DecidableEq, Repr

/-- numpy fancy indexing `X[idx]` of the rows of `X` by an integer array;
an out-of-range index raises `IndexError` (modelled by `none`). -/
def fancyIndex (X : List (List ℚ)) (idx : List ℕ) : Option (List (List ℚ)) :=
  idx.mapM fun i => X.get? i

/-- Python truthiness of `self.max_depth and depth >= self.max_depth`:
`None` and `0` are falsy, so only a positive `max_depth` can stop the
recursion. -/
def depthStop (maxDepth : Option ℕ) (depth : ℕ) : Bool :=
  match maxDepth with
  | none => false
  | some 0 => false
  | some (m + 1) => decide (depth ≥ m + 1)

/-- `_build_tree`, with a fuel parameter making the (not necessarily
terminating) recursion total.  `none` means the Python call does not return
normally: either a modelled runtime error (`np.argmax` of an empty array,
`IndexError` from fancy indexing) or exhausted fuel.  The recursive calls
are the source's `self._build_tree(X[best_split['left_y']],
best_split['left_y'], depth + 1)` and its `right_y` twin. -/
noncomputable def buildTree (maxDepth : Option ℕ) : ℕ → List (List ℚ) → List ℕ → ℕ → Option Tree
  | 0, _, _, _ => none
  | fuel + 1, X, y, depth =>
    let uniqueClasses := npUnique y
    if uniqueClasses.length = 1 then
      some (Tree.leaf (uniqueClasses.headD 0))
    else if X.length = 0 ∨ depthStop maxDepth depth then
      (npArgmax (bincount y)).map Tree.leaf
    else
      match findBestSplit X y with
      | none => (npArgmax (bincount y)).map Tree.leaf
      | some s => do
        let XL ← fancyIndex X s.leftY
        let lt ← buildTree maxDepth fuel XL s.leftY (depth + 1)
        let XR ← fancyIndex X s.rightY
        let rt ← buildTree maxDepth fuel XR s.rightY (depth + 1)
        some (Tree.node s.featureIdx s.threshold lt rt)

/-- The rows of `X` whose value at feature `f` is `≤ t` — what the spec
says the left subtree is built from.  Used only to compare the code's
recursion with the claimed one. -/
def leftRows (X : List (List ℚ)) (f : ℕ) (t : ℚ) : List (List ℚ) :=
  X.filter fun row => decide (row.getD f 0 ≤ t)

/-- The rows of `X` whose value at feature `f` is `> t` (the remaining
rows). -/
def rightRows (X : List (List ℚ)) (f : ℕ) (t : ℚ) : List (List ℚ) :=
  X.filter fun row => !decide (row.getD f 0 ≤ t)

/-- The tree builder as claim C1 describes it: identical to `buildTree`
except that the two recursive calls receive the feature-matrix rows of the
node partitioned by the winning split (left: value at the winning feature
index `≤` the winning threshold; right: the remaining rows), paired with
their labels.  This is the claim's wording, kept only to be compared with
the faithful `buildTree`. -/
noncomputable def buildTreeClaimed (maxDepth : Option ℕ) :
    ℕ → List (List ℚ) → List ℕ → ℕ → Option Tree
  | 0, _, _, _ => none
  | fuel + 1, X, y, depth =>
    let uniqueClasses := npUnique y
    if uniqueClasses.length = 1 then
      some (Tree.leaf (uniqueClasses.headD 0))
    else if X.length = 0 ∨ depthStop maxDepth depth then
      (npArgmax (bincount y)).map Tree.leaf
    else
      match findBestSplit X y with
      | none => (npArgmax (bincount y)).map Tree.leaf
      | some s => do
        let lt ← buildTreeClaimed maxDepth fuel (leftRows X s.featureIdx s.threshold)
          s.leftY (depth + 1)
        let rt ← buildTreeClaimed maxDepth fuel (rightRows X s.featureIdx s.threshold)
          s.rightY (depth + 1)
        some (Tree.node s.featureIdx s.threshold lt rt)

/-- `_predict_single`: walk the tree; at an internal node compare
`x[feature_idx]` with the threshold, going left on `≤` and right
otherwise.  A missing feature index raises `IndexError` (`none`). -/
def predictSingle : Tree → List ℚ → Option ℕ
  | Tree.leaf c, _ => some c
  | Tree.node f t l r, x =>
    (x.get? f).bind fun v => if v ≤ t then predictSingle l x else predictSingle r x

/-- `predict` on a fitted tree: one `_predict_single` per row, in input
order. -/
def predictTree (t : Tree) (X : List (List ℚ)) : Option (List ℕ) :=
  X.mapM fun x => predictSingle t x

/-- The errors `predict` can surface, including the spec's designated
`NotFitted` condition and the `TypeError` that Python actually raises when
`_predict_single` evaluates `'class' in None` on an unfitted model. -/
inductive PredictError where
  | notFitted
  | typeError
  | indexError
deriving DecidableEq

/-- The model object: `self.max_depth` and `self.tree` (which `__init__`
sets to `None`). -/
structure Model where
  maxDepth : Option ℕ
  tree : Option Tree

/-- `_predict_single(x, self.tree)` at the model level: with `self.tree =
None` the membership test `'class' in tree` raises `TypeError`. -/
def predictSingleModel (t : Option Tree) (x : List ℚ) : Except PredictError ℕ :=
  match t with
  | none => Except.error PredictError.typeError
  | some tr =>
    match predictSingle tr x with
    | none => Except.error PredictError.indexError
    | some c => Except.ok c

/-- `predict(X)` at the model level: the list comprehension evaluates
`_predict_single` row by row; the first raised error aborts the call. -/
def predictModel (m : Model) (X : List (List ℚ)) : Except PredictError (List ℕ) :=
  X.mapM fun x => predictSingleModel m.tree x

/-! ### Evaluation lemmas for the entropy of small concrete label lists

The entropy values that occur in the concrete traces are expressed in the
four logarithm atoms `logb 2 (1 + eps)`, `logb 2 (1/2 + eps)`,
`logb 2 (1/3 + eps)` and `logb 2 (2/3 + eps)`. -/

lemma entropy_nil : entropy [] = 0 := by
  rw [entropy]; norm_num [bincount]

lemma entropy_s0 : entropy [0] = -Real.logb 2 (1 + eps) := by
  have h : bincount [0] = [1] := by decide
  rw [entropy, h]; norm_num

lemma entropy_s1 : entropy [1] = -Real.logb 2 (1 + eps) := by
  have h : bincount [1] = [0, 1] := by decide
  rw [entropy, h]; norm_num

lemma entropy_s00 : entropy [0, 0] = -Real.logb 2 (1 + eps) := by
  have h : bincount [0, 0] = [2] := by decide
  rw [entropy, h]; norm_num

lemma entropy_s11 : entropy [1, 1] = -Real.logb 2 (1 + eps) := by
  have h : bincount [1, 1] = [0, 2] := by decide
  rw [entropy, h]; norm_num

lemma entropy_s01 : entropy [0, 1] = -Real.logb 2 (1/2 + eps) := by
  have h : bincount [0, 1] = [1, 1] := by decide
  rw [entropy, h]; norm_num; try ring

lemma entropy_s10 : entropy [1, 0] = -Real.logb 2 (1/2 + eps) := by
  have h : bincount [1, 0] = [1, 1] := by decide
  rw [entropy, h]; norm_num; try ring

lemma entropy_s0011 : entropy [0, 0, 1, 1] = -Real.logb 2 (1/2 + eps) := by
  have h : bincount [0, 0, 1, 1] = [2, 2] := by decide
  rw [entropy, h]; norm_num; try ring

lemma entropy_s011 :
    entropy [0, 1, 1] =
      -((1/3) * Real.logb 2 (1/3 + eps) + (2/3) * Real.logb 2 (2/3 + eps)) := by
  have h : bincount [0, 1, 1] = [1, 2] := by decide
  rw [entropy, h]; norm_num; try ring_nf

lemma entropy_s001 :
    entropy [0, 0, 1] =
      -((1/3) * Real.logb 2 (1/3 + eps) + (2/3) * Real.logb 2 (2/3 + eps)) := by
  have h : bincount [0, 0, 1] = [2, 1] := by decide
  rw [entropy, h]; norm_num; try ring_nf

lemma entropy_s010 :
    entropy [0, 1, 0] =
      -((1/3) * Real.logb 2 (1/3 + eps) + (2/3) * Real.logb 2 (2/3 + eps)) := by
  have h : bincount [0, 1, 0] = [2, 1] := by decide
  rw [entropy, h]; norm_num; try ring_nf

/-! ### Sign facts about the logarithm atoms -/

lemma logb_one_eps_pos : 0 < Real.logb 2 (1 + eps) := by
  apply Real.logb_pos (by norm_num)
  rw [eps]; norm_num

lemma logb_half_eps_neg : Real.logb 2 (1/2 + eps) < 0 := by
  apply Real.logb_neg (by norm_num) ?_ ?_ <;> (rw [eps]; norm_num)

lemma logb_third_eps_neg : Real.logb 2 (1/3 + eps) < 0 := by
  apply Real.logb_neg (by norm_num) ?_ ?_ <;> (rw [eps]; norm_num)

lemma logb_twothirds_eps_neg : Real.logb 2 (2/3 + eps) < 0 := by
  apply Real.logb_neg (by norm_num) ?_ ?_ <;> (rw [eps]; norm_num)

/-! ### Unfolding lemmas for one iteration of the split-search loop -/

lemma bestStep_none (y : List ℕ) (s : Split) : bestStep y none s = some (gainOf y s, s) := rfl

lemma bestStep_update {y : List ℕ} {bg : ℝ} {s : Split} (bs : Split)
    (h : bg < gainOf y s) : bestStep y (some (bg, bs)) s = some (gainOf y s, s) := by
  simp only [bestStep]; exact if_pos h

lemma bestStep_keep {y : List ℕ} {bg : ℝ} {s : Split} (bs : Split)
    (h : ¬bg < gainOf y s) : bestStep y (some (bg, bs)) s = some (bg, bs) := by
  simp only [bestStep]; exact if_neg h

/-! ### The split search on `X = [[1],[2],[3],[4]]`, `y = [0,0,1,1]`

Scan order: thresholds `1, 2, 3, 4`.  The gain of threshold `2` beats the
gain of threshold `1`; thresholds `3` and `4` do not beat it. -/

lemma g12 : gainOf [0,0,1,1] ⟨0,1,[0],[0,1,1]⟩ < gainOf [0,0,1,1] ⟨0,2,[0,0],[1,1]⟩ := by
  simp only [gainOf]
  rw [informationGain, informationGain, entropy_s0011, entropy_s0, entropy_s011,
    entropy_s00, entropy_s11]
  simp only [List.length_cons, List.length_nil]
  push_cast
  linarith [logb_one_eps_pos, logb_third_eps_neg, logb_twothirds_eps_neg]

lemma g23 : ¬gainOf [0,0,1,1] ⟨0,2,[0,0],[1,1]⟩ < gainOf [0,0,1,1] ⟨0,3,[0,0,1],[1]⟩ := by
  simp only [gainOf]
  rw [not_lt, informationGain, informationGain, entropy_s0011, entropy_s001,
    entropy_s00, entropy_s11, entropy_s1]
  simp only [List.length_cons, List.length_nil]
  push_cast
  linarith [logb_one_eps_pos, logb_third_eps_neg, logb_twothirds_eps_neg]

lemma g24 : ¬gainOf [0,0,1,1] ⟨0,2,[0,0],[1,1]⟩ < gainOf [0,0,1,1] ⟨0,4,[0,0,1,1],[]⟩ := by
  simp only [gainOf]
  rw [not_lt, informationGain, informationGain, entropy_s0011, entropy_s00, entropy_s11,
    entropy_nil]
  simp only [List.length_cons, List.length_nil]
  push_cast
  linarith [logb_one_eps_pos, logb_half_eps_neg]

lemma fbs_D1 : findBestSplit [[1],[2],[3],[4]] [0,0,1,1] = some ⟨0, 2, [0,0], [1,1]⟩ := by
  have hc : candidates [[1],[2],[3],[4]] [0,0,1,1] =
      [⟨0,1,[0],[0,1,1]⟩, ⟨0,2,[0,0],[1,1]⟩, ⟨0,3,[0,0,1],[1]⟩, ⟨0,4,[0,0,1,1],[]⟩] := by decide
  rw [findBestSplit, hc]
  rw [List.foldl_cons, bestStep_none]
  rw [List.foldl_cons, bestStep_update _ g12]
  rw [List.foldl_cons, bestStep_keep _ g23]
  rw [List.foldl_cons, bestStep_keep _ g24]
  rw [List.foldl_nil]
  rfl

/-! ### The split search on `X = [[10],[20],[30]]`, `y = [0,1,0]`

The gains of thresholds `10` and `20` are exactly equal (so the strict
comparison keeps the earlier threshold `10`), and the degenerate threshold
`30` has gain `0`, which does not beat the recorded gain.  The latter needs
the genuine numeric fact `(1/2+eps)^2 ≥ (1/3+eps)*(2/3+eps)^2`. -/

lemma keyIneq :
    0 ≤ 2*Real.logb 2 (1/2 + eps) - 2*Real.logb 2 (2/3 + eps) - Real.logb 2 (1/3 + eps) := by
  have hhalf : (0:ℝ) < 1/2 + eps := by rw [eps]; norm_num
  have h23 : (0:ℝ) < 2/3 + eps := by rw [eps]; norm_num
  have h3 : (0:ℝ) < 1/3 + eps := by rw [eps]; norm_num
  have key : 0 ≤ Real.logb 2 (((1/2 + eps)^2) / ((2/3 + eps)^2 * (1/3 + eps))) := by
    apply Real.logb_nonneg (by norm_num)
    rw [le_div_iff₀ (by positivity), one_mul, eps]
    norm_num
  rw [Real.logb_div (by positivity) (by positivity),
    Real.logb_mul (by positivity) (by positivity),
    Real.logb_pow, Real.logb_pow] at key
  push_cast at key
  linarith

lemma gEq1020 : ¬gainOf [0,1,0] ⟨0,10,[0],[1,0]⟩ < gainOf [0,1,0] ⟨0,20,[0,1],[0]⟩ := by
  simp only [gainOf]
  rw [not_lt, informationGain, informationGain, entropy_s010, entropy_s0, entropy_s10,
    entropy_s01]
  simp only [List.length_cons, List.length_nil]
  push_cast
  linarith

lemma g1030 : ¬gainOf [0,1,0] ⟨0,10,[0],[1,0]⟩ < gainOf [0,1,0] ⟨0,30,[0,1,0],[]⟩ := by
  simp only [gainOf]
  rw [not_lt, informationGain, informationGain, entropy_s010, entropy_s0, entropy_s10,
    entropy_nil]
  simp only [List.length_cons, List.length_nil]
  push_cast
  linarith [keyIneq, logb_one_eps_pos]

lemma fbs_D2 : findBestSplit [[10],[20],[30]] [0,1,0] = some ⟨0, 10, [0], [1,0]⟩ := by
  have hc : candidates [[10],[20],[30]] [0,1,0] =
      [⟨0,10,[0],[1,0]⟩, ⟨0,20,[0,1],[0]⟩, ⟨0,30,[0,1,0],[]⟩] := by decide
  rw [findBestSplit, hc]
  rw [List.foldl_cons, bestStep_none]
  rw [List.foldl_cons, bestStep_keep _ gEq1020]
  rw [List.foldl_cons, bestStep_keep _ g1030]
  rw [List.foldl_nil]
  rfl

/-- On the child matrix that the source actually recurses into, `X[[1,0]] =
[[20],[10]]` with labels `[1,0]`, the split search picks threshold `10`. -/
lemma gCode : ¬gainOf [1,0] ⟨0,10,[0],[1]⟩ < gainOf [1,0] ⟨0,20,[1,0],[]⟩ := by
  simp only [gainOf]
  rw [not_lt, informationGain, informationGain, entropy_s10, entropy_s0, entropy_s1,
    entropy_nil]
  simp only [List.length_cons, List.length_nil]
  push_cast
  linarith [logb_one_eps_pos, logb_half_eps_neg]

lemma fbs_D2code : findBestSplit [[20],[10]] [1,0] = some ⟨0, 10, [0], [1]⟩ := by
  have hc : candidates [[20],[10]] [1,0] = [⟨0,10,[0],[1]⟩, ⟨0,20,[1,0],[]⟩] := by decide
  rw [findBestSplit, hc]
  rw [List.foldl_cons, bestStep_none]
  rw [List.foldl_cons, bestStep_keep _ gCode]
  rw [List.foldl_nil]
  rfl

/-- On the child matrix the claim says the recursion should receive, the
rows `[[20],[30]]` with value `> 10`, with labels `[1,0]`, the split search
picks threshold `20`. -/
lemma gClaim : ¬gainOf [1,0] ⟨0,20,[1],[0]⟩ < gainOf [1,0] ⟨0,30,[1,0],[]⟩ := by
  simp only [gainOf]
  rw [not_lt, informationGain, informationGain, entropy_s10, entropy_s0, entropy_s1,
    entropy_nil]
  simp only [List.length_cons, List.length_nil]
  push_cast
  linarith [logb_one_eps_pos, logb_half_eps_neg]

lemma fbs_D2claim : findBestSplit [[20],[30]] [1,0] = some ⟨0, 20, [1], [0]⟩ := by
  have hc : candidates [[20],[30]] [1,0] = [⟨0,20,[1],[0]⟩, ⟨0,30,[1,0],[]⟩] := by decide
  rw [findBestSplit, hc]
  rw [List.foldl_cons, bestStep_none]
  rw [List.foldl_cons, bestStep_keep _ gClaim]
  rw [List.foldl_nil]
  rfl

/-- On a node whose only feature is constant (`X = [[5],[5]]`), the single
candidate threshold is the feature's maximum `5`; it is evaluated (its
right partition is empty) and, beating the initial `-inf`, it is recorded
as the best split — no gain comparison is even needed. -/
lemma fbs_const : findBestSplit [[5],[5]] [0,1] = some ⟨0, 5, [0,1], []⟩ := by
  have hc : candidates [[5],[5]] [0,1] = [⟨0,5,[0,1],[]⟩] := by decide
  rw [findBestSplit, hc]
  rw [List.foldl_cons, bestStep_none, List.foldl_nil]
  rfl

/-! ### Branch lemmas for `_build_tree` -/

lemma buildTree_pure (maxD : Option ℕ) (fuel : ℕ) (X : List (List ℚ)) (y : List ℕ)
    (depth : ℕ) (h : (npUnique y).length = 1) :
    buildTree maxD (fuel + 1) X y depth = some (Tree.leaf ((npUnique y).headD 0)) := by
  rw [buildTree]
  simp only [h, if_true]

lemma buildTree_stopLeaf (maxD : Option ℕ) (fuel : ℕ) (X : List (List ℚ)) (y : List ℕ)
    (depth : ℕ) (h1 : (npUnique y).length ≠ 1)
    (h2 : X.length = 0 ∨ depthStop maxD depth) :
    buildTree maxD (fuel + 1) X y depth = (npArgmax (bincount y)).map Tree.leaf := by
  rw [buildTree]
  rw [if_neg h1, if_pos h2]

lemma buildTree_noSplitLeaf (maxD : Option ℕ) (fuel : ℕ) (X : List (List ℚ)) (y : List ℕ)
    (depth : ℕ) (h1 : (npUnique y).length ≠ 1)
    (h2 : ¬(X.length = 0 ∨ depthStop maxD depth))
    (h3 : findBestSplit X y = none) :
    buildTree maxD (fuel + 1) X y depth = (npArgmax (bincount y)).map Tree.leaf := by
  rw [buildTree]
  rw [if_neg h1, if_neg h2, h3]

lemma buildTree_split (maxD : Option ℕ) (fuel : ℕ) (X : List (List ℚ)) (y : List ℕ)
    (depth : ℕ) (s : Split) (h1 : (npUnique y).length ≠ 1)
    (h2 : ¬(X.length = 0 ∨ depthStop maxD depth))
    (h3 : findBestSplit X y = some s) :
    buildTree maxD (fuel + 1) X y depth =
      (fancyIndex X s.leftY).bind fun XL =>
        (buildTree maxD fuel XL s.leftY (depth + 1)).bind fun lt =>
          (fancyIndex X s.rightY).bind fun XR =>
            (buildTree maxD fuel XR s.rightY (depth + 1)).bind fun rt =>
              some (Tree.node s.featureIdx s.threshold lt rt) := by
  rw [buildTree]
  rw [if_neg h1, if_neg h2, h3]
  rfl

lemma buildTreeClaimed_pure (maxD : Option ℕ) (fuel : ℕ) (X : List (List ℚ)) (y : List ℕ)
    (depth : ℕ) (h : (npUnique y).length = 1) :
    buildTreeClaimed maxD (fuel + 1) X y depth = some (Tree.leaf ((npUnique y).headD 0)) := by
  rw [buildTreeClaimed]
  simp only [h, if_true]

lemma buildTreeClaimed_split (maxD : Option ℕ) (fuel : ℕ) (X : List (List ℚ)) (y : List ℕ)
    (depth : ℕ) (s : Split) (h1 : (npUnique y).length ≠ 1)
    (h2 : ¬(X.length = 0 ∨ depthStop maxD depth))
    (h3 : findBestSplit X y = some s) :
    buildTreeClaimed maxD (fuel + 1) X y depth =
      (buildTreeClaimed maxD fuel (leftRows X s.featureIdx s.threshold)
          s.leftY (depth + 1)).bind fun lt =>
        (buildTreeClaimed maxD fuel (rightRows X s.featureIdx s.threshold)
            s.rightY (depth + 1)).bind fun rt =>
          some (Tree.node s.featureIdx s.threshold lt rt) := by
  rw [buildTreeClaimed]
  rw [if_neg h1, if_neg h2, h3]
  rfl

/-! ### Concrete tree constructions -/

/-- Fitting `X = [[1],[2],[3],[4]]`, `y = [0,0,1,1]` (no depth limit). -/
lemma buildD1 : buildTree none 10 [[1],[2],[3],[4]] [0,0,1,1] 0 =
    some (Tree.node 0 2 (Tree.leaf 0) (Tree.leaf 1)) := by
  have hL : buildTree none 9 [[1],[1]] [0,0] 1 = some (Tree.leaf 0) := by
    rw [show (9:ℕ) = 8+1 from rfl, buildTree_pure none 8 _ _ 1 (by decide)]
    decide
  have hR : buildTree none 9 [[2],[2]] [1,1] 1 = some (Tree.leaf 1) := by
    rw [show (9:ℕ) = 8+1 from rfl, buildTree_pure none 8 _ _ 1 (by decide)]
    decide
  rw [show (10:ℕ) = 9+1 from rfl,
    buildTree_split none 9 _ _ 0 _ (by decide) (by decide) fbs_D1]
  simp only [show fancyIndex [[1],[2],[3],[4]] [0,0] = some [[1],[1]] from by decide,
    show fancyIndex [[1],[2],[3],[4]] [1,1] = some [[2],[2]] from by decide,
    Option.some_bind, hL, hR]

/-- The same fit with `max_depth = 1`: the root is not stopped (depth `0`
is below `1`), and both children are pure, so the resulting tree is
identical. -/
lemma buildD1_depth1 : buildTree (some 1) 10 [[1],[2],[3],[4]] [0,0,1,1] 0 =
    some (Tree.node 0 2 (Tree.leaf 0) (Tree.leaf 1)) := by
  have hL : buildTree (some 1) 9 [[1],[1]] [0,0] 1 = some (Tree.leaf 0) := by
    rw [show (9:ℕ) = 8+1 from rfl, buildTree_pure (some 1) 8 _ _ 1 (by decide)]
    decide
  have hR : buildTree (some 1) 9 [[2],[2]] [1,1] 1 = some (Tree.leaf 1) := by
    rw [show (9:ℕ) = 8+1 from rfl, buildTree_pure (some 1) 8 _ _ 1 (by decide)]
    decide
  rw [show (10:ℕ) = 9+1 from rfl,
    buildTree_split (some 1) 9 _ _ 0 _ (by decide) (by decide) fbs_D1]
  simp only [show fancyIndex [[1],[2],[3],[4]] [0,0] = some [[1],[1]] from by decide,
    show fancyIndex [[1],[2],[3],[4]] [1,1] = some [[2],[2]] from by decide,
    Option.some_bind, hL, hR]

/-- The same fit with `max_depth = 0`: Python truthiness makes `0` behave
as "no depth limit", so the full tree is grown. -/
lemma buildD1_depth0 : buildTree (some 0) 10 [[1],[2],[3],[4]] [0,0,1,1] 0 =
    some (Tree.node 0 2 (Tree.leaf 0) (Tree.leaf 1)) := by
  have hL : buildTree (some 0) 9 [[1],[1]] [0,0] 1 = some (Tree.leaf 0) := by
    rw [show (9:ℕ) = 8+1 from rfl, buildTree_pure (some 0) 8 _ _ 1 (by decide)]
    decide
  have hR : buildTree (some 0) 9 [[2],[2]] [1,1] 1 = some (Tree.leaf 1) := by
    rw [show (9:ℕ) = 8+1 from rfl, buildTree_pure (some 0) 8 _ _ 1 (by decide)]
    decide
  rw [show (10:ℕ) = 9+1 from rfl,
    buildTree_split (some 0) 9 _ _ 0 _ (by decide) (by decide) fbs_D1]
  simp only [show fancyIndex [[1],[2],[3],[4]] [0,0] = some [[1],[1]] from by decide,
    show fancyIndex [[1],[2],[3],[4]] [1,1] = some [[2],[2]] from by decide,
    Option.some_bind, hL, hR]

/-- Fitting `X = [[10],[20],[30]]`, `y = [0,1,0]` with the faithful
builder: the winning root split is threshold `10` with `right_y = [1,0]`,
and the right recursion receives `X[[1,0]] = [[20],[10]]` — the rows of
`X` indexed by the *labels* — so the right subtree splits at threshold `10`
again, with leaves `0` and `1`. -/
lemma buildD2code : buildTree none 10 [[10],[20],[30]] [0,1,0] 0 =
    some (Tree.node 0 10 (Tree.leaf 0)
      (Tree.node 0 10 (Tree.leaf 0) (Tree.leaf 1))) := by
  have hRL : buildTree none 8 [[20]] [0] 2 = some (Tree.leaf 0) := by
    rw [show (8:ℕ) = 7+1 from rfl, buildTree_pure none 7 _ _ 2 (by decide)]
    decide
  have hRR : buildTree none 8 [[10]] [1] 2 = some (Tree.leaf 1) := by
    rw [show (8:ℕ) = 7+1 from rfl, buildTree_pure none 7 _ _ 2 (by decide)]
    decide
  have hR : buildTree none 9 [[20],[10]] [1,0] 1 =
      some (Tree.node 0 10 (Tree.leaf 0) (Tree.leaf 1)) := by
    rw [show (9:ℕ) = 8+1 from rfl,
      buildTree_split none 8 _ _ 1 _ (by decide) (by decide) fbs_D2code]
    simp only [show fancyIndex [[20],[10]] [0] = some [[20]] from by decide,
      show fancyIndex [[20],[10]] [1] = some [[10]] from by decide,
      Option.some_bind, hRL, hRR]
  have hL : buildTree none 9 [[10]] [0] 1 = some (Tree.leaf 0) := by
    rw [show (9:ℕ) = 8+1 from rfl, buildTree_pure none 8 _ _ 1 (by decide)]
    decide
  rw [show (10:ℕ) = 9+1 from rfl,
    buildTree_split none 9 _ _ 0 _ (by decide) (by decide) fbs_D2]
  simp only [show fancyIndex [[10],[20],[30]] [0] = some [[10]] from by decide,
    show fancyIndex [[10],[20],[30]] [1,0] = some [[20],[10]] from by decide,
    Option.some_bind, hL, hR]

/-- The same fit under the claimed recursion (masked rows): the right
recursion receives the rows `[[20],[30]]` with value `> 10`, so the right
subtree splits at threshold `20`, with leaves `1` and `0`. -/
lemma buildD2claimed : buildTreeClaimed none 10 [[10],[20],[30]] [0,1,0] 0 =
    some (Tree.node 0 10 (Tree.leaf 0)
      (Tree.node 0 20 (Tree.leaf 1) (Tree.leaf 0))) := by
  have hRL : buildTreeClaimed none 8 [[20]] [1] 2 = some (Tree.leaf 1) := by
    rw [show (8:ℕ) = 7+1 from rfl, buildTreeClaimed_pure none 7 _ _ 2 (by decide)]
    decide
  have hRR : buildTreeClaimed none 8 [[30]] [0] 2 = some (Tree.leaf 0) := by
    rw [show (8:ℕ) = 7+1 from rfl, buildTreeClaimed_pure none 7 _ _ 2 (by decide)]
    decide
  have hR : buildTreeClaimed none 9 [[20],[30]] [1,0] 1 =
      some (Tree.node 0 20 (Tree.leaf 1) (Tree.leaf 0)) := by
    rw [show (9:ℕ) = 8+1 from rfl,
      buildTreeClaimed_split none 8 _ _ 1 _ (by decide) (by decide) fbs_D2claim]
    simp only [show leftRows [[20],[30]] 0 20 = [[20]] from by decide,
      show rightRows [[20],[30]] 0 20 = [[30]] from by decide,
      Option.some_bind, hRL, hRR]
  have hL : buildTreeClaimed none 9 [[10]] [0] 1 = some (Tree.leaf 0) := by
    rw [show (9:ℕ) = 8+1 from rfl, buildTreeClaimed_pure none 8 _ _ 1 (by decide)]
    decide
  rw [show (10:ℕ) = 9+1 from rfl,
    buildTreeClaimed_split none 9 _ _ 0 _ (by decide) (by decide) fbs_D2]
  simp only [show leftRows [[10],[20],[30]] 0 10 = [[10]] from by decide,
    show rightRows [[10],[20],[30]] 0 10 = [[20],[30]] from by decide,
    Option.some_bind, hL, hR]


/-! ### Semantics of `np.argmax` and of the majority (`bincount` + `argmax`)
computation -/


lemma argmaxAux_spec (rest : List ℕ) : ∀ (i bi bv : ℕ),
    (argmaxAux rest i bi bv = bi ∧ ∀ k, k < rest.length → rest.getD k 0 ≤ bv) ∨
    (∃ k, k < rest.length ∧ argmaxAux rest i bi bv = i + k ∧ bv < rest.getD k 0 ∧
      (∀ j, j < rest.length → rest.getD j 0 ≤ rest.getD k 0) ∧
      (∀ j, j < k → rest.getD j 0 < rest.getD k 0)) := by
  induction rest with
  | nil =>
    intro i bi bv
    left
    exact ⟨rfl, fun k hk => absurd hk (by simp)⟩
  | cons v rest ih =>
    intro i bi bv
    rw [argmaxAux]
    by_cases h : bv < v
    · rw [if_pos h]
      rcases ih (i + 1) i v with ⟨heq, hall⟩ | ⟨k, hk, heq, hlt, hmax, hfirst⟩
      · right
        refine ⟨0, by simp, by simpa using heq, by simpa using h, ?_, ?_⟩
        · intro j hj
          cases j with
          | zero => simp
          | succ j =>
            simp only [List.getD_cons_succ, List.getD_cons_zero]
            exact hall j (by simpa using hj)
        · intro j hj
          omega
      · right
        refine ⟨k + 1, by simpa using hk, by rw [heq]; omega, ?_, ?_, ?_⟩
        · simp only [List.getD_cons_succ]
          exact h.trans hlt
        · intro j hj
          cases j with
          | zero => simp only [List.getD_cons_zero, List.getD_cons_succ]; exact hlt.le
          | succ j =>
            simp only [List.getD_cons_succ]
            exact hmax j (by simpa using hj)
        · intro j hj
          cases j with
          | zero => simp only [List.getD_cons_zero, List.getD_cons_succ]; exact hlt
          | succ j =>
            simp only [List.getD_cons_succ]
            exact hfirst j (by omega)
    · rw [if_neg h]
      rcases ih (i + 1) bi bv with ⟨heq, hall⟩ | ⟨k, hk, heq, hlt, hmax, hfirst⟩
      · left
        refine ⟨heq, ?_⟩
        intro k hk
        cases k with
        | zero => simpa using not_lt.mp h
        | succ k =>
          simp only [List.getD_cons_succ]
          exact hall k (by simpa using hk)
      · right
        refine ⟨k + 1, by simpa using hk, by rw [heq]; omega, ?_, ?_, ?_⟩
        · simp only [List.getD_cons_succ]
          exact hlt
        · intro j hj
          cases j with
          | zero =>
            simp only [List.getD_cons_zero, List.getD_cons_succ]
            exact (not_lt.mp h).trans hlt.le
          | succ j =>
            simp only [List.getD_cons_succ]
            exact hmax j (by simpa using hj)
        · intro j hj
          cases j with
          | zero =>
            simp only [List.getD_cons_zero, List.getD_cons_succ]
            exact lt_of_le_of_lt (not_lt.mp h) hlt
          | succ j =>
            simp only [List.getD_cons_succ]
            exact hfirst j (by omega)

lemma npArgmax_spec {l : List ℕ} {j : ℕ} (h : npArgmax l = some j) :
    j < l.length ∧ (∀ k, k < l.length → l.getD k 0 ≤ l.getD j 0) ∧
      ∀ k, k < j → l.getD k 0 < l.getD j 0 := by
  cases l with
  | nil => simp [npArgmax] at h
  | cons v rest =>
    rw [npArgmax, Option.some_inj] at h
    rcases argmaxAux_spec rest 1 0 v with ⟨heq, hall⟩ | ⟨k, hk, heq, hlt, hmax, hfirst⟩
    · have hj : j = 0 := by omega
      subst hj
      refine ⟨by simp, ?_, by omega⟩
      intro k hk
      cases k with
      | zero => simp
      | succ k =>
        simp only [List.getD_cons_succ, List.getD_cons_zero]
        exact hall k (by simpa using hk)
    · have hj : j = k + 1 := by omega
      subst hj
      refine ⟨by simpa using hk, ?_, ?_⟩
      · intro m hm
        cases m with
        | zero => simp only [List.getD_cons_zero, List.getD_cons_succ]; exact hlt.le
        | succ m =>
          simp only [List.getD_cons_succ]
          exact hmax m (by simpa using hm)
      · intro m hm
        cases m with
        | zero => simp only [List.getD_cons_zero, List.getD_cons_succ]; exact hlt
        | succ m =>
          simp only [List.getD_cons_succ]
          exact hfirst m (by omega)

lemma npArgmax_isSome {l : List ℕ} (h : l ≠ []) : ∃ j, npArgmax l = some j := by
  cases l with
  | nil => exact absurd rfl h
  | cons v rest => exact ⟨argmaxAux rest 1 0 v, rfl⟩

lemma foldr_max_ge {y : List ℕ} : ∀ x ∈ y, x ≤ y.foldr max 0 := by
  induction y with
  | nil => intro x hx; simp at hx
  | cons a t ih =>
    intro x hx
    rcases List.mem_cons.mp hx with hx | hx
    · subst hx; exact le_max_left _ _
    · exact (ih x hx).trans (le_max_right _ _)

lemma bincount_length {y : List ℕ} (hy : y ≠ []) :
    (bincount y).length = y.foldr max 0 + 1 := by
  cases y with
  | nil => exact absurd rfl hy
  | cons a t => simp [bincount]

lemma count_eq_zero_of_length_le {y : List ℕ} {l : ℕ}
    (h : (bincount y).length ≤ l) : y.count l = 0 := by
  cases y with
  | nil => simp
  | cons a t =>
    rw [bincount_length (by simp)] at h
    apply List.count_eq_zero.mpr
    intro hmem
    have := foldr_max_ge l hmem
    omega

lemma bincount_getD (y : List ℕ) (i : ℕ) : (bincount y).getD i 0 = y.count i := by
  cases y with
  | nil => simp [bincount]
  | cons a t =>
    by_cases hi : i < (bincount (a :: t)).length
    · rw [List.getD_eq_getElem _ _ hi]
      rw [bincount_length (by simp)] at hi
      simp [bincount, hi]
    · rw [List.getD_eq_default _ _ (not_lt.mp hi)]
      exact (count_eq_zero_of_length_le (not_lt.mp hi)).symm


lemma argmax_bincount_majority {y : List ℕ} {c : ℕ}
    (h : npArgmax (bincount y) = some c) :
    (∀ l, y.count l ≤ y.count c) ∧ (∀ l, y.count l = y.count c → c ≤ l) := by
  obtain ⟨hc, hmax, hfirst⟩ := npArgmax_spec h
  constructor
  · intro l
    by_cases hl : l < (bincount y).length
    · have := hmax l hl
      rwa [bincount_getD, bincount_getD] at this
    · rw [count_eq_zero_of_length_le (not_lt.mp hl)]
      exact Nat.zero_le _
  · intro l hl
    by_contra hcl
    push_neg at hcl
    have := hfirst l hcl
    rw [bincount_getD, bincount_getD] at this
    omega

lemma npUnique_mem {α : Type} [LinearOrder α] [DecidableEq α] {l : List α} {x : α} :
    x ∈ npUnique l ↔ x ∈ l := by
  rw [npUnique, (List.perm_insertionSort _ l.dedup).mem_iff]
  exact List.mem_dedup

lemma foldr_max_of_all_eq {y : List ℕ} {a : ℕ} (hy : y ≠ [])
    (hall : ∀ x ∈ y, x = a) : y.foldr max 0 = a := by
  induction y with
  | nil => exact absurd rfl hy
  | cons b t ih =>
    have hb : b = a := hall b (List.mem_cons_self b t)
    cases t with
    | nil => simp [hb]
    | cons cc u =>
      have ht : (cc :: u).foldr max 0 = a :=
        ih (by simp) fun x hx => hall x (List.mem_cons_of_mem _ hx)
      simp only [List.foldr_cons] at ht ⊢
      rw [hb, ht]
      exact max_self a

lemma pureMajority {y : List ℕ} (h : (npUnique y).length = 1) :
    npArgmax (bincount y) = some ((npUnique y).headD 0) := by
  obtain ⟨a, ha⟩ := List.length_eq_one.mp h
  have hall : ∀ x ∈ y, x = a := by
    intro x hx
    have := npUnique_mem.mpr hx
    rw [ha] at this
    simpa using this
  have hy : y ≠ [] := by
    intro hnil
    rw [hnil] at ha
    simp [npUnique] at ha
  have hmax0 : y.foldr max 0 = a := foldr_max_of_all_eq hy hall
  have hlen : (bincount y).length = a + 1 := by rw [bincount_length hy, hmax0]
  obtain ⟨j, hj⟩ := npArgmax_isSome (l := bincount y) (by
    intro hb
    rw [hb] at hlen
    simp at hlen)
  obtain ⟨hjlen, hmaxj, _⟩ := npArgmax_spec hj
  have hca : y.count a = y.length := by
    rw [List.count_eq_length]
    intro b hb
    exact (hall b hb).symm
  have hj_eq : j = a := by
    by_contra hne
    have hj0 : y.count j = 0 := by
      apply List.count_eq_zero.mpr
      intro hmem
      exact hne (hall j hmem)
    have hle := hmaxj a (by omega)
    rw [bincount_getD, bincount_getD, hca, hj0] at hle
    have : y.length = 0 := by omega
    exact hy (List.length_eq_zero.mp this)
  rw [ha]
  rw [hj_eq] at hj
  simpa using hj


/-! ### Bounds on the entropy value -/


lemma range_map_sum (m : ℕ) (f : ℕ → ℝ) :
    ((List.range m).map f).sum = ∑ i ∈ Finset.range m, f i := by
  induction m with
  | zero => simp
  | succ n ih =>
    rw [List.range_succ, List.map_append, List.sum_append, Finset.sum_range_succ, ih]
    simp

lemma entropy_eq_sum {y : List ℕ} (hy : y ≠ []) :
    entropy y = -∑ i ∈ Finset.range (y.foldr max 0 + 1),
      ((y.count i : ℝ) / (y.length : ℝ)) *
        Real.logb 2 ((y.count i : ℝ) / (y.length : ℝ) + eps) := by
  cases y with
  | nil => exact absurd rfl hy
  | cons a t =>
    rw [entropy,
      show bincount (a :: t) =
        (List.range ((a :: t).foldr max 0 + 1)).map (fun i => (a :: t).count i) from rfl,
      List.map_map, range_map_sum]
    rfl

lemma sum_count_eq_length {y : List ℕ} {m : ℕ} (hm : ∀ x ∈ y, x < m) :
    ∑ i ∈ Finset.range m, y.count i = y.length := by
  induction y with
  | nil => simp
  | cons a t ih =>
    have ha : a ∈ Finset.range m := Finset.mem_range.mpr (hm a (List.mem_cons_self a t))
    have ht : ∀ x ∈ t, x < m := fun x hx => hm x (List.mem_cons_of_mem _ hx)
    simp only [List.count_cons, List.length_cons, beq_iff_eq]
    rw [Finset.sum_add_distrib, ih ht]
    congr 1
    rw [Finset.sum_ite_eq (Finset.range m) a fun _ => 1]
    simp [ha]


lemma npUnique_length {l : List ℕ} : (npUnique l).length = l.toFinset.card := by
  rw [List.card_toFinset, npUnique]
  exact (List.perm_insertionSort _ l.dedup).length_eq

lemma entropy_ge {y : List ℕ} (hy : y ≠ []) : -Real.logb 2 (1 + eps) ≤ entropy y := by
  rw [entropy_eq_sum hy, neg_le_neg_iff]
  have hn : (0:ℝ) < (y.length : ℝ) := by
    exact_mod_cast List.length_pos.mpr hy
  have heps : (0:ℝ) < eps := by rw [eps]; norm_num
  calc ∑ i ∈ Finset.range (y.foldr max 0 + 1),
        ((y.count i : ℝ) / (y.length : ℝ)) *
          Real.logb 2 ((y.count i : ℝ) / (y.length : ℝ) + eps)
      ≤ ∑ i ∈ Finset.range (y.foldr max 0 + 1),
        ((y.count i : ℝ) / (y.length : ℝ)) * Real.logb 2 (1 + eps) := by
        apply Finset.sum_le_sum
        intro i _
        apply mul_le_mul_of_nonneg_left _ (by positivity)
        apply Real.logb_le_logb_of_le (by norm_num)
        · positivity
        · have hc : (y.count i : ℝ) ≤ (y.length : ℝ) := by
            exact_mod_cast List.count_le_length i y
          have : (y.count i : ℝ) / (y.length : ℝ) ≤ 1 := by
            rw [div_le_one hn]; exact hc
          linarith
    _ = (∑ i ∈ Finset.range (y.foldr max 0 + 1), ((y.count i : ℝ) / (y.length : ℝ))) *
          Real.logb 2 (1 + eps) := by rw [Finset.sum_mul]
    _ = 1 * Real.logb 2 (1 + eps) := by
        congr 1
        rw [← Finset.sum_div]
        rw [show ∑ i ∈ Finset.range (y.foldr max 0 + 1), (y.count i : ℝ) = (y.length : ℝ) by
          norm_cast
          exact sum_count_eq_length fun x hx => Nat.lt_succ_of_le (foldr_max_ge x hx)]
        exact div_self (ne_of_gt hn)
    _ = Real.logb 2 (1 + eps) := one_mul _


lemma entropy_pure_eq {y : List ℕ} (h : (npUnique y).length = 1) :
    entropy y = -Real.logb 2 (1 + eps) := by
  obtain ⟨a, ha⟩ := List.length_eq_one.mp h
  have hall : ∀ x ∈ y, x = a := by
    intro x hx
    have := npUnique_mem.mpr hx
    rw [ha] at this
    simpa using this
  have hy : y ≠ [] := by
    intro hnil
    rw [hnil] at ha
    simp [npUnique] at ha
  have hn : (0:ℝ) < (y.length : ℝ) := by exact_mod_cast List.length_pos.mpr hy
  have hmax0 : y.foldr max 0 = a := foldr_max_of_all_eq hy hall
  rw [entropy_eq_sum hy, hmax0]
  congr 1
  rw [Finset.sum_eq_single a]
  · rw [show y.count a = y.length from List.count_eq_length.mpr fun b hb => (hall b hb).symm]
    rw [div_self (ne_of_gt hn), one_mul]
  · intro i _ hia
    rw [show y.count i = 0 from List.count_eq_zero.mpr fun hmem => hia (hall i hmem)]
    simp
  · intro ha2
    exact absurd (Finset.mem_range.mpr (Nat.lt_succ_self a)) ha2

lemma entropy_le_logb_card {y : List ℕ} (hy : y ≠ []) :
    entropy y ≤ Real.logb 2 ((npUnique y).length : ℝ) := by
  classical
  have hn : (0:ℝ) < (y.length : ℝ) := by exact_mod_cast List.length_pos.mpr hy
  have heps : (0:ℝ) < eps := by rw [eps]; norm_num
  have hmem_lt : ∀ x ∈ y, x < y.foldr max 0 + 1 :=
    fun x hx => Nat.lt_succ_of_le (foldr_max_ge x hx)
  have hSsub : y.toFinset ⊆ Finset.range (y.foldr max 0 + 1) := by
    intro i hi
    rw [List.mem_toFinset] at hi
    exact Finset.mem_range.mpr (hmem_lt i hi)
  have hkpos : 0 < y.toFinset.card := by
    apply Finset.card_pos.mpr
    obtain ⟨a, ha⟩ := List.exists_mem_of_ne_nil y hy
    exact ⟨a, List.mem_toFinset.mpr ha⟩
  have hkposR : (0:ℝ) < (y.toFinset.card : ℝ) := by exact_mod_cast hkpos
  have hppos : ∀ i ∈ y.toFinset, (0:ℝ) < (y.count i : ℝ) / (y.length : ℝ) := by
    intro i hi
    apply div_pos _ hn
    have : 0 < y.count i := List.count_pos_iff.mpr (List.mem_toFinset.mp hi)
    exact_mod_cast this
  have hvanish : ∀ i ∈ Finset.range (y.foldr max 0 + 1), i ∉ y.toFinset →
      ((y.count i : ℝ) / (y.length : ℝ)) *
        Real.logb 2 ((y.count i : ℝ) / (y.length : ℝ) + eps) = 0 := by
    intro i _ hiS
    rw [show y.count i = 0 from
      List.count_eq_zero.mpr fun hmem => hiS (List.mem_toFinset.mpr hmem)]
    simp
  have hE : entropy y = -∑ i ∈ y.toFinset,
      ((y.count i : ℝ) / (y.length : ℝ)) *
        Real.logb 2 ((y.count i : ℝ) / (y.length : ℝ) + eps) := by
    rw [entropy_eq_sum hy, Finset.sum_subset hSsub hvanish]
  have hsum1 : ∑ i ∈ y.toFinset, (y.count i : ℝ) / (y.length : ℝ) = 1 := by
    rw [← Finset.sum_div]
    rw [show ∑ i ∈ y.toFinset, (y.count i : ℝ) = (y.length : ℝ) from ?_]
    · exact div_self (ne_of_gt hn)
    · rw [Finset.sum_subset hSsub fun i _ hiS => by
        rw [show y.count i = 0 from
          List.count_eq_zero.mpr fun hmem => hiS (List.mem_toFinset.mpr hmem)]
        simp]
      norm_cast
      exact sum_count_eq_length hmem_lt
  have hstep1 : entropy y ≤ -∑ i ∈ y.toFinset,
      ((y.count i : ℝ) / (y.length : ℝ)) *
        Real.logb 2 ((y.count i : ℝ) / (y.length : ℝ)) := by
    rw [hE, neg_le_neg_iff]
    apply Finset.sum_le_sum
    intro i hi
    apply mul_le_mul_of_nonneg_left _ (le_of_lt (hppos i hi))
    apply Real.logb_le_logb_of_le (by norm_num) (hppos i hi)
    linarith
  have hlog2 : (0:ℝ) < Real.log 2 := Real.log_pos (by norm_num)
  have hterm : ∀ i ∈ y.toFinset,
      -(((y.count i : ℝ) / (y.length : ℝ)) *
          Real.logb 2 ((y.count i : ℝ) / (y.length : ℝ))) ≤
        (1 / (y.toFinset.card : ℝ) - (y.count i : ℝ) / (y.length : ℝ)) / Real.log 2 +
          ((y.count i : ℝ) / (y.length : ℝ)) * Real.logb 2 (y.toFinset.card : ℝ) := by
    intro i hi
    set p : ℝ := (y.count i : ℝ) / (y.length : ℝ) with hp_def
    have hpi : 0 < p := hppos i hi
    have hsplit : -Real.logb 2 p =
        Real.logb 2 (1 / ((y.toFinset.card : ℝ) * p)) + Real.logb 2 (y.toFinset.card : ℝ) := by
      calc -Real.logb 2 p = Real.logb 2 p⁻¹ := (Real.logb_inv _).symm
        _ = Real.logb 2 (1 / ((y.toFinset.card : ℝ) * p) * (y.toFinset.card : ℝ)) := by
            rw [show 1 / ((y.toFinset.card : ℝ) * p) * (y.toFinset.card : ℝ) = p⁻¹ from by
              field_simp]
        _ = Real.logb 2 (1 / ((y.toFinset.card : ℝ) * p)) +
              Real.logb 2 (y.toFinset.card : ℝ) :=
            Real.logb_mul (by positivity) (ne_of_gt hkposR)
    have hlogle : Real.logb 2 (1 / ((y.toFinset.card : ℝ) * p)) ≤
        (1 / ((y.toFinset.card : ℝ) * p) - 1) / Real.log 2 := by
      rw [Real.logb]
      exact (div_le_div_iff_of_pos_right hlog2).mpr
        (Real.log_le_sub_one_of_pos (by positivity))
    have h2 : p * Real.logb 2 (1 / ((y.toFinset.card : ℝ) * p)) ≤
        p * ((1 / ((y.toFinset.card : ℝ) * p) - 1) / Real.log 2) :=
      mul_le_mul_of_nonneg_left hlogle (le_of_lt hpi)
    have h3 : p * ((1 / ((y.toFinset.card : ℝ) * p) - 1) / Real.log 2) =
        (1 / (y.toFinset.card : ℝ) - p) / Real.log 2 := by
      field_simp
      ring
    have hfinal : -(p * Real.logb 2 p) =
        p * Real.logb 2 (1 / ((y.toFinset.card : ℝ) * p)) +
          p * Real.logb 2 (y.toFinset.card : ℝ) := by
      rw [← mul_add, ← hsplit]
      ring
    rw [hfinal]
    linarith
  have hgibbs : -∑ i ∈ y.toFinset,
      ((y.count i : ℝ) / (y.length : ℝ)) *
        Real.logb 2 ((y.count i : ℝ) / (y.length : ℝ)) ≤
      Real.logb 2 (y.toFinset.card : ℝ) := by
    calc -∑ i ∈ y.toFinset,
          ((y.count i : ℝ) / (y.length : ℝ)) *
            Real.logb 2 ((y.count i : ℝ) / (y.length : ℝ))
        = ∑ i ∈ y.toFinset,
            -(((y.count i : ℝ) / (y.length : ℝ)) *
              Real.logb 2 ((y.count i : ℝ) / (y.length : ℝ))) := by
          rw [Finset.sum_neg_distrib]
      _ ≤ ∑ i ∈ y.toFinset,
            ((1 / (y.toFinset.card : ℝ) - (y.count i : ℝ) / (y.length : ℝ)) / Real.log 2 +
              ((y.count i : ℝ) / (y.length : ℝ)) * Real.logb 2 (y.toFinset.card : ℝ)) :=
          Finset.sum_le_sum hterm
      _ = (∑ i ∈ y.toFinset,
            (1 / (y.toFinset.card : ℝ) - (y.count i : ℝ) / (y.length : ℝ))) / Real.log 2 +
            (∑ i ∈ y.toFinset, (y.count i : ℝ) / (y.length : ℝ)) *
              Real.logb 2 (y.toFinset.card : ℝ) := by
          rw [Finset.sum_add_distrib, ← Finset.sum_div, ← Finset.sum_mul]
      _ = 0 + 1 * Real.logb 2 (y.toFinset.card : ℝ) := by
          rw [hsum1]
          congr 1
          rw [Finset.sum_sub_distrib, hsum1, Finset.sum_const, nsmul_eq_mul]
          rw [mul_one_div, div_self (ne_of_gt hkposR)]
          norm_num
      _ = Real.logb 2 (y.toFinset.card : ℝ) := by ring
  rw [npUnique_length]
  exact hstep1.trans hgibbs


/-! ### Structural lemmas: first-max tie-break of the split search, the
split search always finding a candidate, depth-limited builds, and the
shape of batch prediction -/


/-- Invariant of the split-search fold: the state records the first
candidate (in scan order, among those already scanned) whose gain all
earlier candidates are strictly below and all later scanned candidates do
not exceed. -/
def FirstMax (y : List ℕ) (cs : List Split) : Option (ℝ × Split) → Prop
  | none => cs = []
  | some (bg, bs) => bg = gainOf y bs ∧ ∃ pre post, cs = pre ++ bs :: post ∧
      (∀ c ∈ pre, gainOf y c < bg) ∧ ∀ c ∈ post, gainOf y c ≤ bg

lemma foldl_bestStep_firstMax (y : List ℕ) :
    ∀ (cs₂ cs₁ : List Split) (st : Option (ℝ × Split)), FirstMax y cs₁ st →
      FirstMax y (cs₁ ++ cs₂) (cs₂.foldl (bestStep y) st) := by
  intro cs₂
  induction cs₂ with
  | nil =>
    intro cs₁ st h
    simpa using h
  | cons c rest ih =>
    intro cs₁ st h
    rw [List.foldl_cons]
    have hstep : FirstMax y (cs₁ ++ [c]) (bestStep y st c) := by
      cases st with
      | none =>
        have hnil : cs₁ = [] := h
        subst hnil
        rw [bestStep_none]
        exact ⟨rfl, [], [], by simp, by simp, by simp⟩
      | some p =>
        obtain ⟨bg, bs⟩ := p
        obtain ⟨hbg, pre, post, hcs, hpre, hpost⟩ := h
        by_cases hlt : bg < gainOf y c
        · rw [bestStep_update _ hlt]
          refine ⟨rfl, cs₁, [], by simp, ?_, by simp⟩
          intro d hd
          rw [hcs] at hd
          rcases List.mem_append.mp hd with hd | hd
          · exact (hpre d hd).trans hlt
          · rcases List.mem_cons.mp hd with hd | hd
            · subst hd
              rw [← hbg]
              exact hlt
            · exact lt_of_le_of_lt (hpost d hd) hlt
        · rw [bestStep_keep _ hlt]
          refine ⟨hbg, pre, post ++ [c], by rw [hcs]; simp, hpre, ?_⟩
          intro d hd
          rcases List.mem_append.mp hd with hd | hd
          · exact hpost d hd
          · rw [List.mem_singleton.mp hd]
            exact not_lt.mp hlt
    have := ih (cs₁ ++ [c]) _ hstep
    simpa [List.append_assoc] using this

lemma findBestSplit_firstMax {X : List (List ℚ)} {y : List ℕ} {s : Split}
    (h : findBestSplit X y = some s) :
    ∃ pre post, candidates X y = pre ++ s :: post ∧
      (∀ c ∈ pre, gainOf y c < gainOf y s) ∧ ∀ c ∈ post, gainOf y c ≤ gainOf y s := by
  rw [findBestSplit] at h
  obtain ⟨p, hp, hps⟩ := Option.map_eq_some'.mp h
  have hfm : FirstMax y (candidates X y) ((candidates X y).foldl (bestStep y) none) := by
    have := foldl_bestStep_firstMax y (candidates X y) [] none rfl
    simpa using this
  rw [hp] at hfm
  obtain ⟨bg, bs⟩ := p
  obtain ⟨hbg, pre, post, hcs, hpre, hpost⟩ := hfm
  simp only at hps
  subst hps
  subst hbg
  exact ⟨pre, post, hcs, hpre, hpost⟩


lemma foldl_bestStep_isSome (y : List ℕ) :
    ∀ (cs : List Split) (p : ℝ × Split), ∃ q, cs.foldl (bestStep y) (some p) = some q := by
  intro cs
  induction cs with
  | nil => intro p; exact ⟨p, rfl⟩
  | cons c rest ih =>
    intro p
    obtain ⟨bg, bs⟩ := p
    rw [List.foldl_cons]
    by_cases hlt : bg < gainOf y c
    · rw [bestStep_update _ hlt]
      exact ih _
    · rw [bestStep_keep _ hlt]
      exact ih _

lemma candidates_ne_nil {X : List (List ℚ)} {y : List ℕ} (hX : X ≠ [])
    (hf : 0 < numFeatures X) : candidates X y ≠ [] := by
  have hcol : (0 : ℚ) ∈ column X 0 ∨ True := Or.inr trivial
  obtain ⟨r, rs, hX'⟩ := List.exists_cons_of_ne_nil hX
  have hmem : r.getD 0 0 ∈ column X 0 := by
    rw [hX', column]
    exact List.mem_map_of_mem _ (List.mem_cons_self r rs)
  have hmemu : r.getD 0 0 ∈ npUnique (column X 0) := npUnique_mem.mpr hmem
  apply List.ne_nil_of_mem (a := mkSplit X y 0 (r.getD 0 0))
  rw [candidates]
  apply List.mem_flatMap.mpr
  exact ⟨0, List.mem_range.mpr hf, List.mem_map_of_mem _ hmemu⟩


lemma buildTree_maxDepth_zero : ∀ (fuel : ℕ) (X : List (List ℚ)) (y : List ℕ) (d : ℕ),
    buildTree (some 0) fuel X y d = buildTree none fuel X y d := by
  intro fuel
  induction fuel with
  | zero => intro X y d; rfl
  | succ n ih =>
    intro X y d
    rw [buildTree, buildTree]
    simp only [show depthStop (some 0) d = depthStop none d from rfl, ih]

lemma buildTree_depth1_child {fuel : ℕ} {XL : List (List ℚ)} {ys : List ℕ} {lt : Tree}
    (h : buildTree (some 1) (fuel + 1) XL ys 1 = some lt) :
    ∃ c, lt = Tree.leaf c ∧ npArgmax (bincount ys) = some c := by
  by_cases h1 : (npUnique ys).length = 1
  · rw [buildTree_pure _ _ _ _ _ h1] at h
    exact ⟨_, (Option.some.inj h).symm, pureMajority h1⟩
  · have h2 : XL.length = 0 ∨ depthStop (some 1) 1 = true := Or.inr (by decide)
    rw [buildTree_stopLeaf _ _ _ _ _ h1 h2] at h
    obtain ⟨c, hc, htc⟩ := Option.map_eq_some'.mp h
    exact ⟨c, htc.symm, hc⟩

lemma buildTree_maxDepth_one {X : List (List ℚ)} {y : List ℕ} {fuel : ℕ} {t : Tree}
    (h : buildTree (some 1) (fuel + 2) X y 0 = some t) :
    (∃ c, t = Tree.leaf c ∧ npArgmax (bincount y) = some c) ∨
    (∃ s cl cr, findBestSplit X y = some s ∧
      npArgmax (bincount s.leftY) = some cl ∧ npArgmax (bincount s.rightY) = some cr ∧
      t = Tree.node s.featureIdx s.threshold (Tree.leaf cl) (Tree.leaf cr)) := by
  rw [show fuel + 2 = (fuel + 1) + 1 from rfl] at h
  by_cases h1 : (npUnique y).length = 1
  · rw [buildTree_pure _ _ _ _ _ h1] at h
    exact Or.inl ⟨_, (Option.some.inj h).symm, pureMajority h1⟩
  · by_cases h2 : X.length = 0 ∨ depthStop (some 1) 0
    · rw [buildTree_stopLeaf _ _ _ _ _ h1 h2] at h
      obtain ⟨c, hc, htc⟩ := Option.map_eq_some'.mp h
      exact Or.inl ⟨c, htc.symm, hc⟩
    · cases hs : findBestSplit X y with
      | none =>
        rw [buildTree_noSplitLeaf _ _ _ _ _ h1 h2 hs] at h
        obtain ⟨c, hc, htc⟩ := Option.map_eq_some'.mp h
        exact Or.inl ⟨c, htc.symm, hc⟩
      | some s =>
        rw [buildTree_split _ _ _ _ _ _ h1 h2 hs] at h
        cases hXL : fancyIndex X s.leftY with
        | none => rw [hXL] at h; simp at h
        | some XL =>
          rw [hXL, Option.some_bind] at h
          cases hlt : buildTree (some 1) (fuel + 1) XL s.leftY (0 + 1) with
          | none => rw [hlt] at h; simp at h
          | some lt =>
            rw [hlt, Option.some_bind] at h
            cases hXR : fancyIndex X s.rightY with
            | none => rw [hXR] at h; simp at h
            | some XR =>
              rw [hXR, Option.some_bind] at h
              cases hrt : buildTree (some 1) (fuel + 1) XR s.rightY (0 + 1) with
              | none => rw [hrt] at h; simp at h
              | some rt =>
                rw [hrt, Option.some_bind] at h
                obtain ⟨cl, hcl, hclm⟩ := buildTree_depth1_child hlt
                obtain ⟨cr, hcr, hcrm⟩ := buildTree_depth1_child hrt
                refine Or.inr ⟨s, cl, cr, rfl, hclm, hcrm, ?_⟩
                rw [← Option.some.inj h, hcl, hcr]

lemma predictTree_spec : ∀ (X : List (List ℚ)) (t : Tree) (ys : List ℕ),
    predictTree t X = some ys →
    ys.length = X.length ∧ ∀ i (hi : i < X.length) (hi2 : i < ys.length),
      predictSingle t (X.get ⟨i, hi⟩) = some (ys.get ⟨i, hi2⟩) := by
  intro X
  induction X with
  | nil =>
    intro t ys h
    have : ys = [] := (Option.some.inj h).symm
    subst this
    exact ⟨rfl, fun i hi => absurd hi (by simp)⟩
  | cons x X ih =>
    intro t ys h
    rw [predictTree, List.mapM_cons] at h
    cases hx : predictSingle t x with
    | none => rw [hx] at h; simp at h
    | some c =>
      rw [hx] at h
      cases hXm : List.mapM (fun r => predictSingle t r) X with
      | none => rw [hXm] at h; simp at h
      | some cs =>
        rw [hXm] at h
        have hys : ys = c :: cs := by
          simpa using (Option.some.inj h).symm
        subst hys
        obtain ⟨hlen, hidx⟩ := ih t cs (by rw [predictTree]; exact hXm)
        refine ⟨by simpa using hlen, ?_⟩
        intro i hi hi2
        cases i with
        | zero => simpa using hx
        | succ i =>
          simpa using hidx i (by simpa using hi) (by simpa using hi2)

/-! ## The claims -/

/-- C1.  The claim says the left/right subtrees are built from the
feature-matrix rows of the node partitioned by the winning split, paired
with their labels.  The code instead recurses on `X[best_split['left_y']]`
— the rows of `X` indexed by the *label* values.  On
`X = [[10],[20],[30]]`, `y = [0,1,0]`, the right recursion receives
`X[[1,0]] = [[20],[10]]` rather than the `> 10` rows `[[20],[30]]`, and
the resulting tree differs from the claimed construction (right child
splits at threshold `10` with leaves `0`/`1` instead of at `20` with
leaves `1`/`0`). -/
theorem claim1_recursion_indexes_rows_by_labels :
    buildTree none 10 [[10],[20],[30]] [0,1,0] 0 =
      some (Tree.node 0 10 (Tree.leaf 0)
        (Tree.node 0 10 (Tree.leaf 0) (Tree.leaf 1))) ∧
    buildTreeClaimed none 10 [[10],[20],[30]] [0,1,0] 0 =
      some (Tree.node 0 10 (Tree.leaf 0)
        (Tree.node 0 20 (Tree.leaf 1) (Tree.leaf 0))) ∧
    fancyIndex [[10],[20],[30]] [1,0] = some [[20],[10]] ∧
    rightRows [[10],[20],[30]] 0 10 = [[20],[30]] ∧
    Tree.node 0 10 (Tree.leaf 0) (Tree.node 0 10 (Tree.leaf 0) (Tree.leaf 1)) ≠
      Tree.node 0 10 (Tree.leaf 0) (Tree.node 0 20 (Tree.leaf 1) (Tree.leaf 0)) :=
  ⟨buildD2code, buildD2claimed, by decide, by decide, by decide⟩

/-- C2.  The claim says a threshold equal to the feature's maximum is never
evaluated or selected and that a node whose features are all constant
yields a "no split found" result.  The code enumerates
`np.unique(X[:, f])` without skipping the maximum: on `X = [[5],[5]]`,
`y = [0,1]` the single candidate threshold is the column maximum `5`, it is
evaluated (with an empty right partition) and recorded as the best split,
so the search returns it instead of `None`. -/
theorem claim2_max_threshold_evaluated_and_selected :
    findBestSplit [[5],[5]] [0,1] = some ⟨0, 5, [0,1], []⟩ ∧
    npUnique (column [[5],[5]] 0) = [5] ∧
    (⟨0, 5, [0,1], []⟩ : Split).rightY = [] ∧
    findBestSplit [[5],[5]] [0,1] ≠ none := by
  refine ⟨fbs_const, by decide, rfl, ?_⟩
  rw [fbs_const]
  simp

/-- C3.  Fitting `X = [[1],[2],[3],[4]]`, `y = [0,0,1,1]` produces the
tree with an internal root on feature `0` and threshold `2`, a left leaf
of class `0` and a right leaf of class `1`, and `predict([[1],[4]])`
returns `[0, 1]`. -/
theorem claim3_worked_example :
    buildTree none 10 [[1],[2],[3],[4]] [0,0,1,1] 0 =
      some (Tree.node 0 2 (Tree.leaf 0) (Tree.leaf 1)) ∧
    predictTree (Tree.node 0 2 (Tree.leaf 0) (Tree.leaf 1)) [[1],[4]] = some [0, 1] :=
  ⟨buildD1, by decide⟩

/-- C4, counterexample.  The claim says entropy is non-negative and is
exactly `0` on a single-distinct-label set.  Because the `1e-9` epsilon
sits inside the logarithm, a pure label set evaluates to
`-log2(1 + 1e-9) < 0`. -/
theorem claim4_counterexample :
    (npUnique [0]).length = 1 ∧ entropy [0] < 0 := by
  refine ⟨by decide, ?_⟩
  rw [entropy_s0]
  linarith [logb_one_eps_pos]

/-- C4, amended.  For every non-empty label set the entropy is at least
`-log2(1 + 1e-9)` (a constant within `1.5e-9` of zero, attained exactly on
single-distinct-label sets) and at most `log2` of the number of distinct
labels. -/
theorem claim4_amended (y : List ℕ) (hy : y ≠ []) :
    -Real.logb 2 (1 + eps) ≤ entropy y ∧
    entropy y ≤ Real.logb 2 ((npUnique y).length : ℝ) ∧
    ((npUnique y).length = 1 → entropy y = -Real.logb 2 (1 + eps)) :=
  ⟨entropy_ge hy, entropy_le_logb_card hy, fun h => entropy_pure_eq h⟩

/-- C4, witness for the amended theorem at `y = [0,1]`. -/
theorem claim4_amended_witness :
    -Real.logb 2 (1 + eps) ≤ entropy [0,1] ∧
    entropy [0,1] ≤ Real.logb 2 ((npUnique [0,1]).length : ℝ) ∧
    ((npUnique [0,1]).length = 1 → entropy [0,1] = -Real.logb 2 (1 + eps)) :=
  claim4_amended [0,1] (by decide)

/-- C5, counterexample.  The claim says an empty sample subset yields a
majority Leaf; the code instead evaluates `np.bincount(y).argmax()` on an
empty label vector, which raises (`argmax` of an empty array), so the call
does not return a leaf. -/
theorem claim5_counterexample :
    buildTree (some 3) 5 [] [] 0 = none ∧
    ∀ c, buildTree (some 3) 5 [] [] 0 ≠ some (Tree.leaf c) := by
  have h : buildTree (some 3) 5 [] [] 0 = none := by
    rw [show (5:ℕ) = 4+1 from rfl,
      buildTree_stopLeaf (some 3) 4 [] [] 0 (by decide) (Or.inl rfl)]
    rfl
  exact ⟨h, fun c hc => by rw [h] at hc; exact Option.noConfusion hc⟩

/-- C5, amended.  On a non-empty, non-pure node, when a positive
`max_depth` is configured and the current depth has reached it, the
builder returns a Leaf whose label is `np.bincount(y).argmax()`: the label
with the highest occurrence count, ties broken by the smallest label
value.  (The empty-subset case instead fails, see the counterexample.) -/
theorem claim5_amended (maxD depth fuel : ℕ) (X : List (List ℚ)) (y : List ℕ) (c : ℕ)
    (h1 : (npUnique y).length ≠ 1) (h2 : maxD + 1 ≤ depth)
    (h3 : npArgmax (bincount y) = some c) :
    buildTree (some (maxD + 1)) (fuel + 1) X y depth = some (Tree.leaf c) ∧
    (∀ l, y.count l ≤ y.count c) ∧ (∀ l, y.count l = y.count c → c ≤ l) := by
  have hds : depthStop (some (maxD + 1)) depth = true := by
    simp only [depthStop, decide_eq_true_eq, ge_iff_le]
    omega
  refine ⟨?_, argmax_bincount_majority h3⟩
  rw [buildTree_stopLeaf _ _ _ _ _ h1 (Or.inr hds), h3]
  rfl

/-- C5, witness for the amended theorem: `max_depth = 1` at depth `1` on
`y = [0,1,1]`, whose majority label is `1`. -/
theorem claim5_amended_witness :
    buildTree (some 1) 1 [[1],[2],[3]] [0,1,1] 1 = some (Tree.leaf 1) ∧
    (∀ l, List.count l [0,1,1] ≤ List.count 1 [0,1,1]) ∧
    (∀ l, List.count l [0,1,1] = List.count 1 [0,1,1] → 1 ≤ l) :=
  claim5_amended 0 1 0 [[1],[2],[3]] [0,1,1] 1 (by decide) (by decide) (by decide)

/-- C6.  A candidate replaces the current best split only on strictly
greater gain, so the returned split is the first candidate, in scan order
(feature ascending, then threshold ascending — the order of the
`candidates` list), attaining the maximal gain: all earlier candidates
have strictly smaller gain and no candidate has a greater one. -/
theorem claim6_strict_improvement_first_wins (X : List (List ℚ)) (y : List ℕ) (s : Split)
    (h : findBestSplit X y = some s) :
    ∃ pre post, candidates X y = pre ++ s :: post ∧
      (∀ c ∈ pre, gainOf y c < gainOf y s) ∧ ∀ c ∈ post, gainOf y c ≤ gainOf y s :=
  findBestSplit_firstMax h

/-- C6, witness at the one-candidate node `X = [[5],[5]]`, `y = [0,1]`. -/
theorem claim6_witness :
    ∃ pre post, candidates [[5],[5]] [0,1] = pre ++ (⟨0, 5, [0,1], []⟩ : Split) :: post ∧
      (∀ c ∈ pre, gainOf [0,1] c < gainOf [0,1] ⟨0, 5, [0,1], []⟩) ∧
      ∀ c ∈ post, gainOf [0,1] c ≤ gainOf [0,1] ⟨0, 5, [0,1], []⟩ :=
  claim6_strict_improvement_first_wins [[5],[5]] [0,1] _ fbs_const

/-- C7.  Whenever `predict` returns normally on a fitted tree, it returns
exactly one label per input row, in input order, the `i`-th label being
the result of `_predict_single`, which walks from the root going left on
`row[feature_idx] <= threshold` and right otherwise. -/
theorem claim7_predict_batch (t : Tree) (X : List (List ℚ)) (ys : List ℕ)
    (h : predictTree t X = some ys) :
    ys.length = X.length ∧ ∀ i (hi : i < X.length) (hi2 : i < ys.length),
      predictSingle t (X.get ⟨i, hi⟩) = some (ys.get ⟨i, hi2⟩) :=
  predictTree_spec X t ys h

/-- C7, witness on the worked-example tree and batch `[[1],[4]]`. -/
theorem claim7_witness :
    ([0,1] : List ℕ).length = ([[1],[4]] : List (List ℚ)).length ∧
    ∀ i (hi : i < ([[1],[4]] : List (List ℚ)).length)
      (hi2 : i < ([0,1] : List ℕ).length),
      predictSingle (Tree.node 0 2 (Tree.leaf 0) (Tree.leaf 1))
          (([[1],[4]] : List (List ℚ)).get ⟨i, hi⟩) =
        some (([0,1] : List ℕ).get ⟨i, hi2⟩) :=
  claim7_predict_batch (Tree.node 0 2 (Tree.leaf 0) (Tree.leaf 1)) [[1],[4]] [0,1] (by decide)

/-- C8.  The claim says predicting before fitting fails with a first-class
`NotFitted` error.  The code initialises `self.tree = None` and
`_predict_single` immediately evaluates `'class' in None`, which raises
`TypeError` — a different, incidental error — and on an empty batch the
comprehension never calls `_predict_single`, so the call even succeeds
with `[]`. -/
theorem claim8_unfitted_raises_type_error :
    predictModel ⟨none, none⟩ [[1]] = Except.error PredictError.typeError ∧
    PredictError.typeError ≠ PredictError.notFitted ∧
    predictModel ⟨none, none⟩ [] = Except.ok [] :=
  ⟨rfl, by decide, rfl⟩

/-- C9, counterexample.  With `max_depth = 1` (and likewise `max_depth =
0`, which Python truthiness treats as unset) on `X = [[1],[2],[3],[4]]`,
`y = [0,0,1,1]`, the fitted tree is the root split with two leaves;
predicting `[[4]]` yields `1`, but the global majority label of the
training set is `0` — so predictions do not all equal the global majority
label under either convention. -/
theorem claim9_counterexample :
    buildTree (some 1) 10 [[1],[2],[3],[4]] [0,0,1,1] 0 =
      some (Tree.node 0 2 (Tree.leaf 0) (Tree.leaf 1)) ∧
    buildTree (some 0) 10 [[1],[2],[3],[4]] [0,0,1,1] 0 =
      some (Tree.node 0 2 (Tree.leaf 0) (Tree.leaf 1)) ∧
    predictTree (Tree.node 0 2 (Tree.leaf 0) (Tree.leaf 1)) [[4]] = some [1] ∧
    npArgmax (bincount [0,0,1,1]) = some 0 ∧ (1 : ℕ) ≠ 0 :=
  ⟨buildD1_depth1, buildD1_depth0, by decide, by decide, by decide⟩

/-- C9, amended.  `max_depth = 0` is treated as unset (the tree grows
exactly as with no depth limit), and with `max_depth = 1` every fitted
tree is either a single majority leaf (then predictions are the global
majority) or a root split whose two children are leaves carrying the
`bincount`/`argmax` majority of their own label partitions — predictions
equal the majority of the side of the root split the row falls into, not
the global majority. -/
theorem claim9_amended :
    (∀ (fuel : ℕ) (X : List (List ℚ)) (y : List ℕ) (d : ℕ),
      buildTree (some 0) fuel X y d = buildTree none fuel X y d) ∧
    (∀ (X : List (List ℚ)) (y : List ℕ) (fuel : ℕ) (t : Tree),
      buildTree (some 1) (fuel + 2) X y 0 = some t →
      (∃ c, t = Tree.leaf c ∧ npArgmax (bincount y) = some c) ∨
      (∃ s cl cr, findBestSplit X y = some s ∧
        npArgmax (bincount s.leftY) = some cl ∧
        npArgmax (bincount s.rightY) = some cr ∧
        t = Tree.node s.featureIdx s.threshold (Tree.leaf cl) (Tree.leaf cr))) :=
  ⟨buildTree_maxDepth_zero, fun _ _ _ _ h => buildTree_maxDepth_one h⟩

/-- C9, witness for the amended theorem on the worked example with
`max_depth = 1`. -/
theorem claim9_amended_witness :
    (∃ c, Tree.node 0 2 (Tree.leaf 0) (Tree.leaf 1) = Tree.leaf c ∧
      npArgmax (bincount [0,0,1,1]) = some c) ∨
    (∃ s cl cr, findBestSplit [[1],[2],[3],[4]] [0,0,1,1] = some s ∧
      npArgmax (bincount s.leftY) = some cl ∧
      npArgmax (bincount s.rightY) = some cr ∧
      Tree.node 0 2 (Tree.leaf 0) (Tree.leaf 1) =
        Tree.node s.featureIdx s.threshold (Tree.leaf cl) (Tree.leaf cr)) :=
  claim9_amended.2 [[1],[2],[3],[4]] [0,0,1,1] 8
    (Tree.node 0 2 (Tree.leaf 0) (Tree.leaf 1)) buildD1_depth1

/-- C10.  Whenever the split-search loop runs over a non-empty sample
subset with at least one feature, the candidate list is non-empty and the
very first candidate replaces the initial `-inf`/`None` state, so the loop
always records a best split and the `best_split is None` fallback is
unreachable. -/
theorem claim10_fallback_unreachable (X : List (List ℚ)) (y : List ℕ)
    (hX : X ≠ []) (hf : 0 < numFeatures X) :
    (findBestSplit X y).isSome := by
  obtain ⟨c, rest, hc⟩ := List.exists_cons_of_ne_nil (candidates_ne_nil hX hf)
  rw [findBestSplit, hc, List.foldl_cons, bestStep_none]
  obtain ⟨q, hq⟩ := foldl_bestStep_isSome y rest (gainOf y c, c)
  rw [hq]
  rfl

/-- C10, witness at the one-row, one-feature node `X = [[7]]`, `y = [0]`. -/
theorem claim10_witness : (findBestSplit [[7]] [0]).isSome :=
  claim10_fallback_unreachable [[7]] [0] (by decide) (by decide)

end DT
